import Mathlib

/-!
Shallow embedding of the ssmenv repository (src/cloudsecrets.py, src/ssmenv.py).

The tool walks paths of a remote parameter store (AWS SSM) and renders the
retrieved parameters into env-style, INI-style or directory-style output.
We embed, faithfully to the Python source:

* the data model of a retrieved parameter (`Param`),
* the paginated walker `generateAWSParameters` (modelled against an abstract
  store client, with explicit request and log traces and a fuel bound on
  pagination),
* the env-style serializer `processEnvParameters` with `shlex.quote`,
* the INI serializer `processINIParameters` against a `ConfigParser` model,
* the directory serializer `processDirParameters` with models of
  `os.path.join`, `os.path.realpath`, `os.path.commonpath`, and the custom
  `makedirs` over an explicit filesystem state.

Strings are Lean `String`s; machine-level details (encodings, file handles)
are abstracted: an output stream is the string written to it, a filesystem is
a finite map from component paths to nodes. The model has no symlinks, so
`realpath` is lexical normalization of an absolute path.
-/

/-! ### String primitives

Lean's built-in `String.startsWith`, `String.endsWith`, `String.drop`,
`String.splitOn` are byte-position based and do not reduce in the kernel, so
the Python string operations are modelled on the underlying character lists
(Python slices and scans strings by code point, so the semantics agree). -/

/-- Python `s.startswith('/')`. -/
def strStartsWithSlash (s : String) : Bool :=
  match s.data with
  | '/' :: _ => true
  | _ => false

/-- Python `s.endswith('/')`. -/
def strEndsWithSlash (s : String) : Bool :=
  s.data.getLast? = some '/'

/-- Python slice `s[n:]`. -/
def strDrop (s : String) (n : Nat) : String :=
  String.mk (s.data.drop n)

/-- Python slice `s[:-1]`: remove exactly the last character. -/
def strDropLastChar (s : String) : String :=
  String.mk s.data.dropLast

/-- `Type` tag of an SSM parameter: drives log redaction in the source. -/
inductive PType
  | Plain
  | SecureString
deriving DecidableEq

/-- One retrieved parameter, as the dicts returned by
`get_parameters_by_path`: `Name`, `Value` and the `Type` tag
(`PType` here, since `Type` is not a valid Lean field name). -/
structure Param where
  Name : String
  Value : String
  PType : PType
deriving DecidableEq

/-- One page of a `get_parameters_by_path` response: the parameter list and
the optional continuation token. -/
structure Page where
  Parameters : List Param
  NextToken : Option String
deriving DecidableEq

/-- The abstract store client: a request is a path plus an optional
continuation token; the response is a page, or an error (modelling any
exception raised by the boto3 call). -/
def Client : Type := String → Option String → Except Unit Page

/-- Log events emitted by the tool (the content relevant to the claims). -/
inductive LogEvent
  | infoGetting (path : String)
  | infoFinished (path : String)
  | exceptionPath (path : String)
  | warnInvalidName (name : String)
  | errorEscaped (filename : String)
  | exceptionCreate (filename : String)
  | debugParam (path name value : String)
  | debugRedacted (path name : String)
deriving DecidableEq

/-- Python truthiness of the `NextToken` value: `None` and `''` are falsy
(`if not nextToken: break` / `if nextToken:` in the source). -/
def tokTruthy : Option String → Bool
  | none => false
  | some s => !s.data.isEmpty

/-- Result of paginating one path: the requests issued (path, token sent),
the log events, the yielded `(param, basePath)` pairs, and whether the
pagination ended by a request failure. -/
structure WalkResult where
  requests : List (String × Option String)
  logs : List LogEvent
  outs : List (Param × String)
  failed : Bool
deriving DecidableEq

/-- The pagination loop of `generateAWSParameters` for a single
(already normalized) path `p`: issue a request with the current token,
on error log and stop (`failed := true`), otherwise yield the page's
parameters paired with `p` and continue while the response token is truthy.
`fuel` bounds the number of iterations (the Python loop is unbounded). -/
def walkPath (client : Client) (p : String) : Nat → Option String → WalkResult
  | 0, _ => ⟨[], [], [], false⟩
  | fuel + 1, tok =>
    match client p tok with
    | .error _ =>
      ⟨[(p, tok)], [.infoGetting p, .exceptionPath p], [], true⟩
    | .ok page =>
      if tokTruthy page.NextToken then
        let r := walkPath client p fuel page.NextToken
        ⟨(p, tok) :: r.requests, .infoGetting p :: r.logs,
          page.Parameters.map (fun q => (q, p)) ++ r.outs, r.failed⟩
      else
        ⟨[(p, tok)], [.infoGetting p, .infoFinished p],
          page.Parameters.map (fun q => (q, p)), false⟩

/-- `'/' + path` when the path does not start with `/`. -/
def prefixSlash (p : String) : String :=
  if strStartsWithSlash p then p else "/" ++ p

/-- Input normalization of `generateAWSParameters`: prefix `/` when missing,
then strip exactly one trailing `/` when present. -/
def normStr (p : String) : String :=
  let q := prefixSlash p
  if strEndsWithSlash q then strDropLastChar q else q

/-- Combined outcome of walking a list of paths. -/
structure GenResult where
  requests : List (String × Option String)
  logs : List LogEvent
  outs : List (Param × String)
deriving DecidableEq

/-- `generateAWSParameters`: for each input path, raise `ValueError` when it
is empty (`.error ()`), otherwise normalize it and paginate; request
failures are absorbed per path (the `failed` flag is not propagated). -/
def generateAWSParameters (client : Client) (fuel : Nat) :
    List String → Except Unit GenResult
  | [] => .ok ⟨[], [], []⟩
  | p :: rest =>
    if p = "" then .error ()
    else
      let w := walkPath client (normStr p) fuel none
      match generateAWSParameters client fuel rest with
      | .error e => .error e
      | .ok r => .ok ⟨w.requests ++ r.requests, w.logs ++ r.logs, w.outs ++ r.outs⟩

/-! ### Env-style serializer (`processEnvParameters`, styles bash/dotenv/docker) -/

/-- The env output styles (`ENV_STYLES` in the source). -/
inductive Style
  | bash
  | dotenv
  | docker
deriving DecidableEq

/-- A character that `shlex.quote` considers safe (complement of
`_find_unsafe` under `re.ASCII`: ASCII letters, digits, and the characters
`_ @ % + = : , . -` and the slash). -/
def shlexSafe (c : Char) : Bool :=
  c.isAlphanum || c = '_' || c = '@' || c = '%' || c = '+' || c = '=' ||
    c = ':' || c = ',' || c = '.' || c = '/' || c = '-'

/-- Python `shlex.quote`: empty strings become `''`; strings of safe
characters are returned unchanged; otherwise the string is wrapped in single
quotes with every embedded single quote replaced by `'"'"'`. -/
def shlexQuote (s : String) : String :=
  if s = "" then "\x27\x27"
  else if s.data.all shlexSafe then s
  else "\x27" ++
    String.join (s.data.map fun c =>
      if c = '\x27' then "\x27\"\x27\"\x27" else String.mk [c]) ++ "\x27"

/-- The characters after the last `/` of the string, or `none` when the
string has no `/`. -/
def afterLastSlash : List Char → Option (List Char)
  | [] => none
  | c :: rest =>
    match afterLastSlash rest with
    | some t => some t
    | none => if c = '/' then some rest else none

/-- `[a-zA-Z_][a-zA-Z_0-9]*`: a valid bash identifier. -/
def envIdentOk (l : List Char) : Bool :=
  match l with
  | [] => false
  | c :: rest => (c.isAlpha || c = '_') && rest.all (fun d => d.isAlphanum || d = '_')

/-- The text Python's `$` anchor makes these patterns match over: without
`re.MULTILINE`, `$` matches at the end of the string and also just before a
newline that ends the string. The captured name classes all exclude `'\n'`,
so a match against a string with a trailing newline is exactly a match
against the string without that final newline, and a match against any
other string ends at its end. -/
def dollarCore (s : String) : List Char :=
  if s.data.getLast? = some '\n' then s.data.dropLast else s.data

/-- `ENV_PARAMETER_NAME_RE.search`: the pattern `/([a-zA-Z_][a-zA-Z_0-9]*)$`
matches exactly when the text after the last `/` (up to the `$` position,
see `dollarCore`) is a nonempty bash identifier (the identifier class
excludes `/`, so only the last `/` can start a match); the captured group
is that trailing identifier. -/
def envName (s : String) : Option String :=
  match afterLastSlash (dollarCore s) with
  | none => none
  | some t => if envIdentOk t then some (String.mk t) else none

/-- The body of the `processEnvParameters` loop for one parameter: the text
written to the stream and the log events, in source order (skip with a
warning on a failed name match; quote the value for bash/dotenv; debug-log
with redaction for `SecureString`; emit the comment line, `export ` for
bash, and the `name=value` line). -/
def envStep (style : Style) (p : Param) : String × List LogEvent :=
  match envName p.Name with
  | none => ("", [.warnInvalidName p.Name])
  | some name =>
    let value := if style = .bash || style = .dotenv then shlexQuote p.Value else p.Value
    let lg :=
      match p.PType with
      | .SecureString => LogEvent.debugRedacted p.Name name
      | .Plain => LogEvent.debugParam p.Name name value
    ("# " ++ p.Name ++ "\n" ++ (if style = .bash then "export " else "") ++
      name ++ "=" ++ value ++ "\n", [lg])

/-- `processEnvParameters`: every `(param, basePath)` pair of the walk, in
order, through `envStep`; the first component is the full text written to
the output stream, the second the log events. -/
def processEnvParameters (style : Style) : List (Param × String) → String × List LogEvent
  | [] => ("", [])
  | q :: rest =>
    let s := envStep style q.1
    let r := processEnvParameters style rest
    (s.1 ++ r.1, s.2 ++ r.2)

/-! ### INI serializer (`processINIParameters`) -/

/-- The character class `[a-zA-Z0-9_-]` of `INI_PARAMETER_NAME_RE`. -/
def iniClass (c : Char) : Bool :=
  c.isAlphanum || c = '_' || c = '-'

/-- A nonempty run of `iniClass` characters. -/
def iniNameOk (l : List Char) : Bool :=
  !l.isEmpty && l.all iniClass

/-- `INI_PARAMETER_NAME_RE` (`^/(?:(section)[./])?(name)$` with both groups
`[a-zA-Z0-9_-]+`): the string must start with `/`; the greedy section group
can only be the maximal class-character prefix (the class excludes `.` and
`/`), so the match succeeds either with a `.`- or `/`-separated nonempty
section and nonempty name, or, with no separator present, with the whole
tail as the name. -/
def iniMatchChars (l : List Char) : Option (Option (List Char) × List Char) :=
  match l with
  | [] => none
  | c :: rest =>
    if c = '/' then
      match rest.dropWhile iniClass with
      | [] => if iniNameOk rest then some (none, rest) else none
      | c2 :: nm =>
        if (c2 = '.' || c2 = '/') && iniNameOk (rest.takeWhile iniClass) && iniNameOk nm
        then some (some (rest.takeWhile iniClass), nm)
        else none
    else none

/-- String version of `iniMatchChars` (optional section group and name),
applied to the region the `^...$` anchors select: the whole string, less a
single trailing newline when present (see `dollarCore`). -/
def iniMatchStr (s : String) : Option (Option String × String) :=
  match iniMatchChars (dollarCore s) with
  | none => none
  | some (osec, nm) => some (osec.map String.mk, String.mk nm)

/-- Python `str.lower` (on the ASCII letters that the name classes allow). -/
def strLower (s : String) : String :=
  String.mk (s.data.map Char.toLower)

/-- `configparser.ConfigParser` state: the `DEFAULT` section's options and
the ordered list of named sections, each an ordered `key -> value` list. -/
structure IniCfg where
  defaults : List (String × String)
  sections : List (String × List (String × String))
deriving DecidableEq

/-- Set a key in an ordered option list: overwrite in place, else append. -/
def setPair : List (String × String) → String → String → List (String × String)
  | [], k, v => [(k, v)]
  | (k0, v0) :: rest, k, v =>
    if k0 = k then (k0, v) :: rest else (k0, v0) :: setPair rest k v

/-- Set a key in an ordered section list, appending a new section at the
end on first use (as `config[section] = {}` followed by the option set). -/
def setSection : List (String × List (String × String)) → String → String → String →
    List (String × List (String × String))
  | [], sec, k, v => [(sec, [(k, v)])]
  | (s0, kvs) :: rest, sec, k, v =>
    if s0 = sec then (s0, setPair kvs k v) :: rest
    else (s0, kvs) :: setSection rest sec k v

/-- `config[section][name] = value`: the option key goes through
`optionxform` (lowercasing); the `DEFAULT` section name addresses the
parser's default section. -/
def iniSet (cfg : IniCfg) (sec name value : String) : IniCfg :=
  if sec = "DEFAULT" then { cfg with defaults := setPair cfg.defaults (strLower name) value }
  else { cfg with sections := setSection cfg.sections sec (strLower name) value }

/-- Python `value.replace('%%', '')`: remove non-overlapping `%%` pairs,
scanning left to right. -/
def stripDoublePercent : List Char → List Char
  | '%' :: '%' :: rest => stripDoublePercent rest
  | c :: rest => c :: stripDoublePercent rest
  | [] => []

/-- One `%(name)s` interpolation reference at the head of the list
(`BasicInterpolation._KEYCRE`, `%\(([^)]+)\)s`): `%`, `(`, one or more
non-`)` characters, then `)s`. Returns the remainder after the reference;
the inner class excludes `)`, so only the maximal run can be followed by
the closing `)s` and no further backtracking applies. -/
def matchKeyRef : List Char → Option (List Char)
  | '%' :: '(' :: rest =>
    match rest.dropWhile (fun c => !(c == ')')) with
    | ')' :: 's' :: rem =>
      if (rest.takeWhile (fun c => !(c == ')'))).isEmpty then none else some rem
    | _ => none
  | _ => none

/-- `_KEYCRE.sub('', value)`: delete every interpolation reference, left to
right, non-overlapping. The fuel is the list length; every step consumes at
least one character, so it never runs out. -/
def stripKeyRefsAux : Nat → List Char → List Char
  | 0, l => l
  | _, [] => []
  | fuel + 1, c :: rest =>
    match matchKeyRef (c :: rest) with
    | some rem => stripKeyRefsAux fuel rem
    | none => c :: stripKeyRefsAux fuel rest

/-- `_KEYCRE.sub('', value)` at its natural fuel. -/
def stripKeyRefs (l : List Char) : List Char :=
  stripKeyRefsAux l.length l

/-- `BasicInterpolation.before_set`: after removing escaped `%%` pairs and
`%(name)s` references, any remaining `%` raises `ValueError`
(`RawConfigParser.set` runs the check only for truthy values; the empty
string passes either way). -/
def beforeSetOk (value : String) : Bool :=
  if value = "" then true
  else !((stripKeyRefs (stripDoublePercent value.data)).contains '%')

/-- `config[section][name] = value` through the section proxy:
`ConfigParser.set` first passes the value to the interpolation's
`before_set` (raising `ValueError` on invalid interpolation syntax), then
stores the original value. -/
def iniSetE (cfg : IniCfg) (sec name value : String) : Except Unit IniCfg :=
  if beforeSetOk value then .ok (iniSet cfg sec name value) else .error ()

/-- The per-parameter debug log line shared by the accumulating emitters:
redacted for `SecureString`, raw value otherwise. -/
def debugLogOf (p : Param) (nm : String) : LogEvent :=
  match p.PType with
  | .SecureString => LogEvent.debugRedacted p.Name nm
  | .Plain => LogEvent.debugParam p.Name nm p.Value

/-- The accumulation loop of `processINIParameters`: per parameter, take the
path tail after the base path, match it against `INI_PARAMETER_NAME_RE`
(warn and skip on failure), default the section to `main`, debug-log with
redaction, and store `name -> value` into the config; an uncaught
`ValueError` from the interpolation check aborts the loop (`.error` in the
first component), the second component being the log events produced up to
that point. -/
def iniAccum (cfg : IniCfg) : List (Param × String) → Except Unit IniCfg × List LogEvent
  | [] => (.ok cfg, [])
  | (p, base) :: rest =>
    match iniMatchStr (strDrop p.Name base.length) with
    | none =>
      let r := iniAccum cfg rest
      (r.1, .warnInvalidName p.Name :: r.2)
    | some (osec, name) =>
      let sec := osec.getD "main"
      match iniSetE cfg sec name p.Value with
      | .error e => (.error e, [debugLogOf p name])
      | .ok cfg1 =>
        let r := iniAccum cfg1 rest
        (r.1, debugLogOf p name :: r.2)

/-- `ConfigParser.write` escaping of values: newlines continue the value on
an indented line. -/
def nlEscape (s : String) : String :=
  String.mk (s.data.flatMap fun c => if c = '\n' then ['\n', '\t'] else [c])

/-- One `key = value` line of `ConfigParser.write`. -/
def writeKV (kv : String × String) : String :=
  kv.1 ++ " = " ++ nlEscape kv.2 ++ "\n"

/-- One section of `ConfigParser.write`: header, options, blank line. -/
def writeSection (name : String) (kvs : List (String × String)) : String :=
  "[" ++ name ++ "]\n" ++ String.join (kvs.map writeKV) ++ "\n"

/-- `ConfigParser.write`: the `DEFAULT` section first when nonempty, then
every named section in insertion order. -/
def writeINI (cfg : IniCfg) : String :=
  (if cfg.defaults.isEmpty then "" else writeSection "DEFAULT" cfg.defaults) ++
    String.join (cfg.sections.map fun s => writeSection s.1 s.2)

/-- The empty `ConfigParser()`. -/
def emptyCfg : IniCfg := ⟨[], []⟩

/-- `processINIParameters`: accumulate every parameter of the run into one
config, then serialize it once with `config.write` to the run's output
stream; a `ValueError` raised while accumulating propagates out of the
function before anything is written (`.error` in the first component). -/
def processINIParameters (params : List (Param × String)) :
    Except Unit String × List LogEvent :=
  let r := iniAccum emptyCfg params
  (r.1.map writeINI, r.2)

/-! ### Java-properties serializer (`processJavaParameters`) -/

/-- `JAVA_PARAMETER_NAME_RE.search` (`^/(?P<name>.+)$`): the path tail —
less an optional single trailing newline, see `dollarCore` — must be `/`
followed by one or more characters none of which is a newline (`.` does
not match `'\n'`); the captured name is that tail. -/
def javaName (s : String) : Option String :=
  match dollarCore s with
  | '/' :: tail =>
    if !tail.isEmpty && tail.all (fun c => !(c == '\n')) then some (String.mk tail)
    else none
  | _ => none

/-- Python `name.replace('/', '.')`. -/
def strReplaceSlashDot (s : String) : String :=
  String.mk (s.data.map fun c => if c = '/' then '.' else c)

/-- The accumulation loop of `processJavaParameters`: match the path tail
against `JAVA_PARAMETER_NAME_RE` (warn and skip on failure), debug-log with
redaction, and store the value under the dotted key in the ordered
`jproperties.Properties` mapping (insertion order, overwrite in place). -/
def javaAccum (props : List (String × String)) :
    List (Param × String) → List (String × String) × List LogEvent
  | [] => (props, [])
  | (p, base) :: rest =>
    match javaName (strDrop p.Name base.length) with
    | none =>
      let r := javaAccum props rest
      (r.1, .warnInvalidName p.Name :: r.2)
    | some name =>
      let r := javaAccum (setPair props (strReplaceSlashDot name) p.Value) rest
      (r.1, debugLogOf p name :: r.2)

/-- `processJavaParameters` up to the final `props.store(fh, ...)`: the
ordered key/value mapping handed to the jproperties serializer, and the
log events. The serializer is an external library function of exactly this
mapping (plus run-level inputs such as its timestamp), invoked once at the
end of the loop; theorems about the emitted bytes therefore quantify over
that function. -/
def processJavaParameters (params : List (Param × String)) :
    List (String × String) × List LogEvent :=
  javaAccum [] params

/-! ### POSIX path functions used by the directory serializer

`os.path.realpath` on an absolute path with no symbolic links is lexical
normalization: split on `/`, drop empty and `.` components, let `..` remove
the previous component (staying at the root when there is none). -/

/-- Python `s.split('/')` (every separator splits; empty parts are kept). -/
def splitSlashAux : List Char → List Char → List String
  | [], cur => [String.mk cur.reverse]
  | c :: rest, cur =>
    if c = '/' then String.mk cur.reverse :: splitSlashAux rest []
    else splitSlashAux rest (c :: cur)

/-- Python `s.split('/')`. -/
def splitSlash (s : String) : List String :=
  splitSlashAux s.data []

/-- Components kept by `os.path.commonpath` (drops empty and `.`). -/
def compKeep (c : String) : Bool :=
  c ≠ "" && c ≠ "."

/-- The nonempty, non-`.` components of a path string. -/
def cleanSplit (s : String) : List String :=
  (splitSlash s).filter compKeep

/-- `'/'.join` of a component list. -/
def joinSlash : List String → String
  | [] => ""
  | [c] => c
  | c :: d :: rest => c ++ "/" ++ joinSlash (d :: rest)

/-- Normalization core of `realpath`: skip empty and `.` components, pop on
`..` (a no-op at the root), push anything else; `acc` is the reversed stack
of resolved components. -/
def resolveComps (acc : List String) : List String → List String
  | [] => acc.reverse
  | c :: rest =>
    if c = "" || c = "." then resolveComps acc rest
    else if c = ".." then resolveComps acc.tail rest
    else resolveComps (c :: acc) rest

/-- The resolved components of an absolute path string. -/
def realComps (s : String) : List String :=
  resolveComps [] (splitSlash s)

/-- `os.path.realpath` of an absolute path (no symlinks in the model). -/
def realpathStr (s : String) : String :=
  "/" ++ joinSlash (realComps s)

/-- `os.path.join(a, b)`: `b` when absolute; otherwise `a` and `b` glued
with a `/` unless `a` is empty or already ends with one. -/
def pathJoin (a b : String) : String :=
  if strStartsWithSlash b then b
  else if a = "" then b
  else if strEndsWithSlash a then a ++ b
  else a ++ "/" ++ b

/-- Longest common prefix of two component lists. -/
def commonPref : List String → List String → List String
  | a :: as, b :: bs => if a = b then a :: commonPref as bs else []
  | _, _ => []

/-- `os.path.commonpath([a, b])` for two absolute paths: the `/`-joined
longest common prefix of their kept components. -/
def commonpath2 (a b : String) : String :=
  "/" ++ joinSlash (commonPref (cleanSplit a) (cleanSplit b))

/-! ### Filesystem model and `makedirs`

A filesystem is a finite map from absolute component paths to nodes. Only
the distinction `FileExistsError` vs any other `OSError` is behaviorally
relevant (`makedirs` swallows exactly `FileExistsError` in its recursion),
so the other error kinds are collapsed onto close POSIX analogues. -/

/-- A filesystem node: a directory or a regular file with contents. -/
inductive Node
  | dir
  | file (content : String)
deriving DecidableEq

/-- Filesystem state: association list from component paths to nodes
(the root `[]` is implicitly always a directory). -/
def Fs : Type := List (List String × Node)

instance : DecidableEq Fs := by
  unfold Fs
  infer_instance

/-- Node stored at a path. -/
def lookupFs (fs : Fs) (p : List String) : Option Node :=
  (fs.find? fun e => e.1 == p).map fun e => e.2

/-- Remove a path from the map. -/
def removeFs (fs : Fs) (p : List String) : Fs :=
  fs.filter fun e => !(e.1 == p)

/-- Store a node at a path (overwriting). -/
def insertFs (fs : Fs) (p : List String) (n : Node) : Fs :=
  (p, n) :: removeFs fs p

/-- `os.path.isdir`. -/
def isdir (fs : Fs) (p : List String) : Bool :=
  p.isEmpty ||
    match lookupFs fs p with
    | some .dir => true
    | _ => false

/-- The `OSError` kinds the model distinguishes. -/
inductive OSErr
  | fileExists
  | fileNotFound
  | isADir
deriving DecidableEq

/-- `os.mkdir`: fails with `FileExistsError` when the path exists, with
`FileNotFoundError`/`NotADirectoryError` when the parent is not a
directory. -/
def osMkdir (fs : Fs) (p : List String) : Fs × Option OSErr :=
  if p.isEmpty then (fs, some .fileExists)
  else if (lookupFs fs p).isSome then (fs, some .fileExists)
  else if isdir fs p.dropLast = false then (fs, some .fileNotFound)
  else (insertFs fs p .dir, none)

/-- `os.rename`: fails with `FileNotFoundError` when the source is missing
or the destination's parent is not a directory, with `IsADirectoryError`
when the destination exists as a directory; otherwise moves the node
(overwriting an existing file). -/
def osRename (fs : Fs) (src dst : List String) : Fs × Option OSErr :=
  match lookupFs fs src with
  | none => (fs, some .fileNotFound)
  | some n =>
    if isdir fs dst.dropLast = false then (fs, some .fileNotFound)
    else
      match lookupFs fs dst with
      | some .dir => (fs, some .isADir)
      | _ => (insertFs (removeFs fs src) dst n, none)

/-- The rename-aside name `f"{name}.{uuid4()}"`: the final component with
`.` and the uuid appended. -/
def uuidName (name : List String) (uuid : String) : List String :=
  name.dropLast ++ [(name.getLast?.getD "") ++ "." ++ uuid]

/-- The custom `makedirs` of cloudsecrets.py. Recurses on the parent when it
is not yet a directory, swallowing only `FileExistsError`. Then, in a `try`
block: when `name` is not a directory it renames `name` aside to
`name.<uuid>` (note: `os.rename` raises `FileNotFoundError` when `name`
does not exist at all), creates the directory, and moves the renamed node
to `.value` inside it; any `OSError` from the block is swallowed exactly
when `exist_ok` holds and `name` is a directory afterwards. Returns the
(possibly partially updated) filesystem and the raised error, if any. -/
def makedirsAux (uuid : String) (exist_ok : Bool) :
    Nat → Fs → List String → Fs × Option OSErr
  | 0, fs, _ => (fs, none)
  | fuel + 1, fs, name =>
    let step1 : Fs × Option OSErr :=
      if name ≠ [] ∧ isdir fs name.dropLast = false then
        match makedirsAux uuid exist_ok fuel fs name.dropLast with
        | (fs1, some .fileExists) => (fs1, none)
        | (fs1, some e) => (fs1, some e)
        | (fs1, none) => (fs1, none)
      else (fs, none)
    match step1 with
    | (fs1, some e) => (fs1, some e)
    | (fs1, none) =>
      let attempt : Fs × Option OSErr :=
        if isdir fs1 name = false then
          match osRename fs1 name (uuidName name uuid) with
          | (fsA, some e) => (fsA, some e)
          | (fsA, none) =>
            match osMkdir fsA name with
            | (fsB, some e) => (fsB, some e)
            | (fsB, none) =>
              match osRename fsB (uuidName name uuid) (name ++ [".value"]) with
              | (fsC, r) => (fsC, r)
        else
          match osMkdir fs1 name with
          | (fsB, r) => (fsB, r)
      match attempt with
      | (fs2, none) => (fs2, none)
      | (fs2, some e) =>
        if exist_ok && isdir fs2 name then (fs2, none) else (fs2, some e)

/-- `makedirs` at its natural recursion depth (the recursion descends one
path component per call, so `name.length + 1` fuel always suffices). -/
def makedirs (fs : Fs) (name : List String) (uuid : String) (exist_ok : Bool) :
    Fs × Option OSErr :=
  makedirsAux uuid exist_ok (name.length + 1) fs name

/-- `open(filename, 'wt')` followed by writing `content`: creates or
truncates the file; fails when the parent is not a directory or the path is
an existing directory. -/
def writeFile (fs : Fs) (p : List String) (content : String) : Fs × Option OSErr :=
  if isdir fs p.dropLast = false then (fs, some .fileNotFound)
  else
    match lookupFs fs p with
    | some .dir => (fs, some .isADir)
    | _ => (insertFs fs p (.file content), none)

/-- Result of the directory serializer: final filesystem, log events, and
the list of target filenames of files actually written. -/
structure DirResult where
  fs : Fs
  logs : List LogEvent
  writes : List String
deriving DecidableEq

/-- The body of the `processDirParameters` loop for one parameter:
`name` is the parameter name with the base path and one separator stripped,
the target is `realpath(join(outputRoot, name))`; when
`commonpath([outputRoot, target])` is not the root itself the parameter is
rejected with an error log (escape guard) and nothing is touched; otherwise
the parent directories are ensured with `makedirs(..., exist_ok=True)` and
the value is written, any failure being logged and skipped. -/
def dirStep (root uuid : String) (fs : Fs) (p : Param) (base : String) :
    Fs × List LogEvent × List String :=
  let name := strDrop p.Name (base.length + 1)
  let filename := realpathStr (pathJoin root name)
  if commonpath2 root filename ≠ root then (fs, [.errorEscaped filename], [])
  else
    let dbg :=
      match p.PType with
      | .SecureString => LogEvent.debugRedacted p.Name name
      | .Plain => LogEvent.debugParam p.Name name p.Value
    match makedirs fs (realComps filename).dropLast uuid true with
    | (fs1, some _) => (fs1, [dbg, .exceptionCreate filename], [])
    | (fs1, none) =>
      match writeFile fs1 (realComps filename) p.Value with
      | (fs2, some _) => (fs2, [dbg, .exceptionCreate filename], [])
      | (fs2, none) => (fs2, [dbg], [filename])

/-- The loop of `processDirParameters` over all parameters, threading the
filesystem. -/
def processDirGo (root uuid : String) (fs : Fs) : List (Param × String) → DirResult
  | [] => ⟨fs, [], []⟩
  | (p, base) :: rest =>
    let s := dirStep root uuid fs p base
    let r := processDirGo root uuid s.1 rest
    ⟨r.fs, s.2.1 ++ r.logs, s.2.2 ++ r.writes⟩

/-- `processDirParameters`: resolve the output directory once with
`realpath`, then process every parameter. -/
def processDirParameters (outputDir uuid : String) (fs0 : Fs)
    (params : List (Param × String)) : DirResult :=
  processDirGo (realpathStr outputDir) uuid fs0 params

/-- The `__main__` wiring for the INI style: one walk over all input paths
feeds one `processINIParameters` call, whose output text goes to the run's
(single) destination stream. -/
def mainINI (client : Client) (fuel : Nat) (paths : List String) :
    Except Unit (String × List LogEvent) :=
  match generateAWSParameters client fuel paths with
  | .error e => .error e
  | .ok r =>
    match processINIParameters r.outs with
    | (.ok out, logs) => .ok (out, logs)
    | (.error e, _) => .error e

/-- Replace every parameter's `Type` tag (used to compare two runs that are
identical except for those tags). -/
def retype (f : Param → PType) : List (Param × String) → List (Param × String)
  | [] => []
  | q :: rest => (⟨q.1.Name, q.1.Value, f q.1⟩, q.2) :: retype f rest

/-! ## Helper lemmas -/

lemma tokTruthy_some (t : String) (h : t ≠ "") : tokTruthy (some t) = true := by
  have hd : t.data ≠ [] := by
    intro hd
    exact h (String.ext (by simpa using hd))
  simp [tokTruthy, List.isEmpty_iff, hd]

lemma walkPath_requests_outs (client : Client) (q : String) :
    ∀ (fuel : Nat) (tok : Option String),
      (∀ rq ∈ (walkPath client q fuel tok).requests, rq.1 = q) ∧
      (∀ o ∈ (walkPath client q fuel tok).outs, o.2 = q) := by
  intro fuel
  induction fuel with
  | zero => intro tok; simp [walkPath]
  | succ n ih =>
    intro tok
    cases hc : client q tok with
    | error e => simp [walkPath, hc]
    | ok page =>
      by_cases ht : tokTruthy page.NextToken
      · have := ih page.NextToken
        constructor
        · intro rq hrq
          simp [walkPath, hc, ht] at hrq
          rcases hrq with h1 | h2
          · simp [h1]
          · exact this.1 rq h2
        · intro o ho
          simp [walkPath, hc, ht] at ho
          rcases ho with ⟨a, _, h1⟩ | h2
          · simp [← h1]
          · exact this.2 o h2
      · constructor
        · intro rq hrq
          simp [walkPath, hc, ht] at hrq
          simp [hrq]
        · intro o ho
          simp [walkPath, hc, ht] at ho
          rcases ho with ⟨a, _, h1⟩
          simp [← h1]

lemma generateAWS_ok (client : Client) (fuel : Nat) :
    ∀ paths : List String, (∀ q ∈ paths, q ≠ "") →
      ∃ r, generateAWSParameters client fuel paths = .ok r := by
  intro paths
  induction paths with
  | nil => intro _; exact ⟨⟨[], [], []⟩, rfl⟩
  | cons p rest ih =>
    intro h
    obtain ⟨r, hr⟩ := ih (fun q hq => h q (by simp [hq]))
    have hp : p ≠ "" := h p (by simp)
    refine ⟨⟨(walkPath client (normStr p) fuel none).requests ++ r.requests,
      (walkPath client (normStr p) fuel none).logs ++ r.logs,
      (walkPath client (normStr p) fuel none).outs ++ r.outs⟩, ?_⟩
    simp [generateAWSParameters, hp, hr]

lemma generateAWS_append (client : Client) (fuel : Nat) :
    ∀ (l1 l2 : List String) (r1 r2 : GenResult),
      generateAWSParameters client fuel l1 = .ok r1 →
      generateAWSParameters client fuel l2 = .ok r2 →
      generateAWSParameters client fuel (l1 ++ l2) =
        .ok ⟨r1.requests ++ r2.requests, r1.logs ++ r2.logs, r1.outs ++ r2.outs⟩ := by
  intro l1
  induction l1 with
  | nil =>
    intro l2 r1 r2 h1 h2
    simp [generateAWSParameters] at h1
    simp [← h1, h2]
  | cons p l1 ih =>
    intro l2 r1 r2 h1 h2
    by_cases hp : p = ""
    · simp [generateAWSParameters, hp] at h1
    · simp only [generateAWSParameters, if_neg hp] at h1
      cases hg : generateAWSParameters client fuel l1 with
      | error e => rw [hg] at h1; simp at h1
      | ok r1x =>
        rw [hg] at h1
        simp at h1
        have hx := ih l2 r1x r2 hg h2
        simp only [List.cons_append, generateAWSParameters, if_neg hp]
        rw [List.append_eq, hx]
        simp [← h1, List.append_assoc]

/-! ## Claims -/

/-- Claim C2: when a store request for one path fails, the walker logs the
failure and stops paginating that path only. Part one: a failing request is
issued exactly once, the failure is logged, and pagination of that path
stops immediately with nothing further yielded. Part two: the walk of a
path list never raises for the enclosing run (the result is `.ok`) and the
remaining input paths are still walked in full, whatever each path's
pagination (including a failed one) did. -/
theorem claim2_store_failure :
    (∀ (client : Client) (fuel : Nat) (p : String) (tok : Option String),
      client p tok = .error () →
      walkPath client p (fuel + 1) tok =
        ⟨[(p, tok)], [.infoGetting p, .exceptionPath p], [], true⟩) ∧
    (∀ (client : Client) (fuel : Nat) (ps1 ps2 : List String) (p : String),
      (∀ q ∈ ps1 ++ p :: ps2, q ≠ "") →
      ∃ r1 r2, generateAWSParameters client fuel ps1 = .ok r1 ∧
        generateAWSParameters client fuel ps2 = .ok r2 ∧
        generateAWSParameters client fuel (ps1 ++ p :: ps2) =
          .ok ⟨r1.requests ++ ((walkPath client (normStr p) fuel none).requests ++ r2.requests),
               r1.logs ++ ((walkPath client (normStr p) fuel none).logs ++ r2.logs),
               r1.outs ++ ((walkPath client (normStr p) fuel none).outs ++ r2.outs)⟩) := by
  constructor
  · intro client fuel p tok h
    simp [walkPath, h]
  · intro client fuel ps1 ps2 p h
    obtain ⟨r1, hr1⟩ := generateAWS_ok client fuel ps1
      (fun q hq => h q (by simp [hq]))
    obtain ⟨r2, hr2⟩ := generateAWS_ok client fuel ps2
      (fun q hq => h q (by simp [hq]))
    have hp : p ≠ "" := h p (by simp)
    refine ⟨r1, r2, hr1, hr2, ?_⟩
    have hmid : generateAWSParameters client fuel (p :: ps2) =
        .ok ⟨(walkPath client (normStr p) fuel none).requests ++ r2.requests,
             (walkPath client (normStr p) fuel none).logs ++ r2.logs,
             (walkPath client (normStr p) fuel none).outs ++ r2.outs⟩ := by
      simp [generateAWSParameters, hp, hr2]
    exact generateAWS_append client fuel ps1 (p :: ps2) r1 _ hr1 hmid

/-- Witness for C2 at a concrete client that always fails. -/
theorem claim2_store_failure_witness :
    walkPath (fun _ _ => (.error () : Except Unit Page)) "/a" 1 none =
      ⟨[("/a", none)], [.infoGetting "/a", .exceptionPath "/a"], [], true⟩ :=
  claim2_store_failure.1 (fun _ _ => .error ()) 0 "/a" none rfl

/-- Claim C3: pagination issues the first request with no token, then each
further request with the token of the previous response, stops at the first
response without a token, and yields the pages' entries once each, in page
order: with three pages, the requests are exactly `none, t1, t2` and the
yield is the concatenation of the three pages. -/
theorem claim3_pagination :
    ∀ (client : Client) (P t1 t2 : String) (l1 l2 l3 : List Param) (fuel : Nat),
      client P none = .ok ⟨l1, some t1⟩ →
      client P (some t1) = .ok ⟨l2, some t2⟩ →
      client P (some t2) = .ok ⟨l3, none⟩ →
      t1 ≠ "" → t2 ≠ "" → 3 ≤ fuel →
      walkPath client P fuel none =
        ⟨[(P, none), (P, some t1), (P, some t2)],
         [.infoGetting P, .infoGetting P, .infoGetting P, .infoFinished P],
         (l1 ++ l2 ++ l3).map (fun q => (q, P)), false⟩ := by
  intro client P t1 t2 l1 l2 l3 fuel h1 h2 h3 ht1 ht2 hfuel
  obtain ⟨k, rfl⟩ : ∃ k, fuel = k + 3 := ⟨fuel - 3, by omega⟩
  have e1 : tokTruthy (some t1) = true := tokTruthy_some t1 ht1
  have e2 : tokTruthy (some t2) = true := tokTruthy_some t2 ht2
  show walkPath client P (k + 2 + 1) none = _
  rw [walkPath]
  simp only [h1, e1]
  rw [walkPath]
  simp only [h2, e2]
  rw [walkPath]
  simp only [h3]
  simp [tokTruthy]

/-- Witness for C3 at a concrete three-page client. -/
theorem claim3_pagination_witness :
    walkPath
      (fun _ tok =>
        match tok with
        | none => .ok ⟨[⟨"/a/x", "1", .Plain⟩], some "T1"⟩
        | some "T1" => .ok ⟨[⟨"/a/y", "2", .Plain⟩], some "T2"⟩
        | some "T2" => .ok ⟨[⟨"/a/z", "3", .Plain⟩], none⟩
        | some _ => .error ())
      "/a" 3 none =
      ⟨[("/a", none), ("/a", some "T1"), ("/a", some "T2")],
       [.infoGetting "/a", .infoGetting "/a", .infoGetting "/a", .infoFinished "/a"],
       [(⟨"/a/x", "1", .Plain⟩, "/a"), (⟨"/a/y", "2", .Plain⟩, "/a"),
        (⟨"/a/z", "3", .Plain⟩, "/a")], false⟩ :=
  claim3_pagination _ "/a" "T1" "T2" [⟨"/a/x", "1", .Plain⟩] [⟨"/a/y", "2", .Plain⟩]
    [⟨"/a/z", "3", .Plain⟩] 3 rfl rfl rfl (by decide) (by decide) (by omega)

/-- Claim C10: a non-empty input path ending in `/` loses exactly one
trailing slash (after the `/` prefixing), the normalized string is both the
request path and the base path paired with every yielded parameter, and a
path given as `/a/` behaves exactly like `/a`. -/
theorem claim10_trailing_slash :
    (∀ p : String, p ≠ "" → strEndsWithSlash p = true →
      normStr p = strDropLastChar (prefixSlash p)) ∧
    (∀ (client : Client) (fuel : Nat) (p : String) (r : GenResult),
      generateAWSParameters client fuel [p] = .ok r →
      (∀ rq ∈ r.requests, rq.1 = normStr p) ∧ (∀ o ∈ r.outs, o.2 = normStr p)) ∧
    (∀ (client : Client) (fuel : Nat),
      generateAWSParameters client fuel ["/a/"] = generateAWSParameters client fuel ["/a"]) := by
  refine ⟨?_, ?_, ?_⟩
  · intro p _ hslash
    have hdata : p.data.getLast? = some '/' := by
      simpa [strEndsWithSlash] using hslash
    have hend : strEndsWithSlash (prefixSlash p) = true := by
      unfold prefixSlash
      by_cases hs : strStartsWithSlash p = true
      · simp [hs, hslash]
      · simp only [hs]
        rw [if_neg (by simp [hs])]
        have : ("/" ++ p).data = '/' :: p.data := by
          simp [String.data_append]
        unfold strEndsWithSlash
        rw [this]
        cases hd : p.data with
        | nil => rw [hd] at hdata; simp at hdata
        | cons c l =>
          rw [hd] at hdata
          simp only [List.getLast?_cons_cons]
          simpa using hdata
    unfold normStr
    simp [hend]
  · intro client fuel p r h
    by_cases hp : p = ""
    · simp [generateAWSParameters, hp] at h
    · simp [generateAWSParameters, hp] at h
      have hw := walkPath_requests_outs client (normStr p) fuel none
      rw [← h]
      simpa using hw
  · intro client fuel
    have h1 : normStr "/a/" = "/a" := by decide
    have h2 : normStr "/a" = "/a" := by decide
    simp [generateAWSParameters, h1, h2]

lemma str_empty_append (s : String) : "" ++ s = s :=
  String.ext (by simp [String.data_append])

lemma processEnv_append (style : Style) : ∀ l1 l2 : List (Param × String),
    processEnvParameters style (l1 ++ l2) =
      ((processEnvParameters style l1).1 ++ (processEnvParameters style l2).1,
       (processEnvParameters style l1).2 ++ (processEnvParameters style l2).2) := by
  intro l1 l2
  induction l1 with
  | nil => simp [processEnvParameters, str_empty_append]
  | cons q rest ih =>
    simp only [List.cons_append, processEnvParameters]
    rw [List.append_eq, ih]
    exact Prod.ext (String.ext (by simp [String.data_append])) (by simp)

lemma iniAccum_skip (cfg : IniCfg) (p : Param) (b : String) (l : List (Param × String))
    (h : iniMatchStr (strDrop p.Name b.length) = none) :
    iniAccum cfg ((p, b) :: l) =
      ((iniAccum cfg l).1, .warnInvalidName p.Name :: (iniAccum cfg l).2) := by
  simp [iniAccum, h]

lemma iniAccum_set (cfg : IniCfg) (p : Param) (b : String) (l : List (Param × String))
    (osec : Option String) (nm : String) (cfg1 : IniCfg)
    (hm : iniMatchStr (strDrop p.Name b.length) = some (osec, nm))
    (hs : iniSetE cfg (osec.getD "main") nm p.Value = .ok cfg1) :
    iniAccum cfg ((p, b) :: l) =
      ((iniAccum cfg1 l).1, debugLogOf p nm :: (iniAccum cfg1 l).2) := by
  simp [iniAccum, hm, hs, debugLogOf]

lemma iniAccum_set_err (cfg : IniCfg) (p : Param) (b : String) (l : List (Param × String))
    (osec : Option String) (nm : String) (e : Unit)
    (hm : iniMatchStr (strDrop p.Name b.length) = some (osec, nm))
    (hs : iniSetE cfg (osec.getD "main") nm p.Value = .error e) :
    iniAccum cfg ((p, b) :: l) = (.error e, [debugLogOf p nm]) := by
  simp [iniAccum, hm, hs, debugLogOf]

lemma iniAccum_append_ok : ∀ (l1 l2 : List (Param × String)) (cfg cfg1 : IniCfg)
    (logs1 : List LogEvent), iniAccum cfg l1 = (.ok cfg1, logs1) →
    iniAccum cfg (l1 ++ l2) =
      ((iniAccum cfg1 l2).1, logs1 ++ (iniAccum cfg1 l2).2) := by
  intro l1
  induction l1 with
  | nil =>
    intro l2 cfg cfg1 logs1 h
    rw [iniAccum] at h
    simp only [Prod.mk.injEq, Except.ok.injEq] at h
    obtain ⟨h1, h2⟩ := h
    subst h1
    subst h2
    simp
  | cons q rest ih =>
    intro l2 cfg cfg1 logs1 h
    obtain ⟨p, b⟩ := q
    cases hm : iniMatchStr (strDrop p.Name b.length) with
    | none =>
      rw [iniAccum_skip cfg p b rest hm] at h
      cases hr : iniAccum cfg rest with
      | mk exc logs =>
        rw [hr] at h
        simp only [Prod.mk.injEq] at h
        obtain ⟨h1, h2⟩ := h
        subst h1
        rw [List.cons_append, iniAccum_skip cfg p b (rest ++ l2) hm,
          ih l2 cfg cfg1 logs hr]
        simp [← h2]
    | some v =>
      obtain ⟨osec, nm⟩ := v
      cases hs : iniSetE cfg (osec.getD "main") nm p.Value with
      | error e =>
        rw [iniAccum_set_err cfg p b rest osec nm e hm hs] at h
        simp at h
      | ok cfgA =>
        rw [iniAccum_set cfg p b rest osec nm cfgA hm hs] at h
        cases hr : iniAccum cfgA rest with
        | mk exc logs =>
          rw [hr] at h
          simp only [Prod.mk.injEq] at h
          obtain ⟨h1, h2⟩ := h
          subst h1
          rw [List.cons_append, iniAccum_set cfg p b (rest ++ l2) osec nm cfgA hm hs,
            ih l2 cfgA cfg1 logs hr]
          simp [← h2]

lemma iniAccum_append_err : ∀ (l1 l2 : List (Param × String)) (cfg : IniCfg) (e : Unit)
    (logs1 : List LogEvent), iniAccum cfg l1 = (.error e, logs1) →
    iniAccum cfg (l1 ++ l2) = (.error e, logs1) := by
  intro l1
  induction l1 with
  | nil =>
    intro l2 cfg e logs1 h
    rw [iniAccum] at h
    simp at h
  | cons q rest ih =>
    intro l2 cfg e logs1 h
    obtain ⟨p, b⟩ := q
    cases hm : iniMatchStr (strDrop p.Name b.length) with
    | none =>
      rw [iniAccum_skip cfg p b rest hm] at h
      cases hr : iniAccum cfg rest with
      | mk exc logs =>
        rw [hr] at h
        simp only [Prod.mk.injEq] at h
        obtain ⟨h1, h2⟩ := h
        subst h1
        rw [List.cons_append, iniAccum_skip cfg p b (rest ++ l2) hm,
          ih l2 cfg e logs hr]
        simp [← h2]
    | some v =>
      obtain ⟨osec, nm⟩ := v
      cases hs : iniSetE cfg (osec.getD "main") nm p.Value with
      | error e2 =>
        rw [iniAccum_set_err cfg p b rest osec nm e2 hm hs] at h
        simp only [Prod.mk.injEq, Except.error.injEq] at h
        obtain ⟨h1, h2⟩ := h
        rw [List.cons_append, iniAccum_set_err cfg p b (rest ++ l2) osec nm e2 hm hs]
        cases e
        cases e2
        simp [← h2]
      | ok cfgA =>
        rw [iniAccum_set cfg p b rest osec nm cfgA hm hs] at h
        cases hr : iniAccum cfgA rest with
        | mk exc logs =>
          rw [hr] at h
          simp only [Prod.mk.injEq] at h
          obtain ⟨h1, h2⟩ := h
          subst h1
          rw [List.cons_append, iniAccum_set cfg p b (rest ++ l2) osec nm cfgA hm hs,
            ih l2 cfgA e logs hr]
          simp [← h2]

lemma javaAccum_append : ∀ (l1 l2 : List (Param × String)) (props : List (String × String)),
    javaAccum props (l1 ++ l2) =
      ((javaAccum (javaAccum props l1).1 l2).1,
       (javaAccum props l1).2 ++ (javaAccum (javaAccum props l1).1 l2).2) := by
  intro l1
  induction l1 with
  | nil => intro l2 props; simp [javaAccum]
  | cons q rest ih =>
    intro l2 props
    obtain ⟨p, b⟩ := q
    cases h : javaName (strDrop p.Name b.length) with
    | none => simp [List.cons_append, javaAccum, h, ih]
    | some nm => simp [List.cons_append, javaAccum, h, ih]

/-- Witness for C10: concrete instances of all three parts. -/
theorem claim10_trailing_slash_witness :
    normStr "/b/c/" = strDropLastChar (prefixSlash "/b/c/") ∧
    (∀ rq ∈ (⟨[("/b", none)], [.infoGetting "/b", .infoFinished "/b"],
        [(⟨"/b/k", "v", PType.Plain⟩, "/b")]⟩ : GenResult).requests, rq.1 = normStr "/b/") := by
  constructor
  · exact claim10_trailing_slash.1 "/b/c/" (by decide) (by decide)
  · have h := (claim10_trailing_slash.2.1
      (fun _ _ => .ok ⟨[⟨"/b/k", "v", PType.Plain⟩], none⟩) 1 "/b/"
      ⟨[("/b", none)], [.infoGetting "/b", .infoFinished "/b"],
        [(⟨"/b/k", "v", PType.Plain⟩, "/b")]⟩ rfl).1
    exact h


/-- Claim C4: for every accepted parameter in env styles, the emitter writes
the comment line `# <FullName>`, then `export ` exactly for the bash style,
then `<name>=<value>` and a newline, with the value `shlex`-quoted for bash
and dotenv and raw for docker. -/
theorem claim4_env_emission :
    ∀ (pre post : List (Param × String)) (p : Param) (b : String) (name : String),
      envName p.Name = some name →
      ((processEnvParameters .bash (pre ++ (p, b) :: post)).1 =
        (processEnvParameters .bash pre).1 ++
          ("# " ++ p.Name ++ "\n" ++ "export " ++ name ++ "=" ++ shlexQuote p.Value ++ "\n") ++
          (processEnvParameters .bash post).1) ∧
      ((processEnvParameters .dotenv (pre ++ (p, b) :: post)).1 =
        (processEnvParameters .dotenv pre).1 ++
          ("# " ++ p.Name ++ "\n" ++ name ++ "=" ++ shlexQuote p.Value ++ "\n") ++
          (processEnvParameters .dotenv post).1) ∧
      ((processEnvParameters .docker (pre ++ (p, b) :: post)).1 =
        (processEnvParameters .docker pre).1 ++
          ("# " ++ p.Name ++ "\n" ++ name ++ "=" ++ p.Value ++ "\n") ++
          (processEnvParameters .docker post).1) := by
  intro pre post p b name h
  refine ⟨?_, ?_, ?_⟩ <;>
  · rw [processEnv_append]
    refine String.ext ?_
    simp [processEnvParameters, envStep, h, String.data_append]

/-- Witness for C4 at a concrete accepted parameter. -/
theorem claim4_env_emission_witness :
    (processEnvParameters .bash [(⟨"/a/K", "v w", PType.Plain⟩, "/a")]).1 =
      (processEnvParameters .bash []).1 ++
        ("# " ++ "/a/K" ++ "\n" ++ "export " ++ "K" ++ "=" ++ shlexQuote "v w" ++ "\n") ++
        (processEnvParameters .bash []).1 := by
  have h := (claim4_env_emission [] [] ⟨"/a/K", "v w", PType.Plain⟩ "/a" "K" (by decide)).1
  simpa using h

/-- Claim C8 counterexample: the claim as stated is false. In an INI run,
a parameter whose name fails the pattern is indeed skipped with a warning,
but a sibling parameter with a valid name whose value has invalid
interpolation syntax (a bare `%`, here `100%`) raises `ValueError` from
`ConfigParser` at store time, aborting the run before serialization — so
the valid-named sibling is NOT emitted and the run produces no output. -/
theorem claim8_sibling_abort :
    iniMatchStr (strDrop "/a/b.c.d" ("/a" : String).length) = none ∧
    iniMatchStr (strDrop "/a/good" ("/a" : String).length) = some (none, "good") ∧
    processINIParameters
        [(⟨"/a/b.c.d", "x", PType.Plain⟩, "/a"), (⟨"/a/good", "100%", PType.Plain⟩, "/a")] =
      (.error (), [.warnInvalidName "/a/b.c.d", .debugParam "/a/good" "good" "100%"]) := by
  refine ⟨by decide, by decide, rfl⟩

/-- Claim C8, amended: for the env, INI and java styles (the styles with a
required name pattern), every parameter whose name fails the pattern is
skipped with a warning log and contributes nothing to the output, and
processing continues past the skip; sibling parameters with valid names
are still emitted — unconditionally for the env and java styles, and for
the INI style provided no parameter's value aborts the run through
`ConfigParser`'s interpolation `ValueError` (for the INI log equation, the
warning is logged when processing reaches the parameter, i.e. when the
preceding parameters accumulate without error). -/
theorem claim8_invalid_name_skipped :
    (∀ (style : Style) (pre post : List (Param × String)) (p : Param) (b : String),
      envName p.Name = none →
      (processEnvParameters style (pre ++ (p, b) :: post)).1 =
        (processEnvParameters style (pre ++ post)).1 ∧
      (processEnvParameters style (pre ++ (p, b) :: post)).2 =
        (processEnvParameters style pre).2 ++
          .warnInvalidName p.Name :: (processEnvParameters style post).2) ∧
    (∀ (pre post : List (Param × String)) (p : Param) (b : String),
      iniMatchStr (strDrop p.Name b.length) = none →
      ((processINIParameters (pre ++ (p, b) :: post)).1 =
        (processINIParameters (pre ++ post)).1) ∧
      (∀ (cfg1 : IniCfg) (logs1 : List LogEvent),
        iniAccum emptyCfg pre = (.ok cfg1, logs1) →
        (processINIParameters (pre ++ (p, b) :: post)).2 =
          logs1 ++ .warnInvalidName p.Name :: (iniAccum cfg1 post).2)) ∧
    (∀ (pre post : List (Param × String)) (p : Param) (b : String),
      javaName (strDrop p.Name b.length) = none →
      (processJavaParameters (pre ++ (p, b) :: post)).1 =
        (processJavaParameters (pre ++ post)).1 ∧
      (processJavaParameters (pre ++ (p, b) :: post)).2 =
        (processJavaParameters pre).2 ++
          .warnInvalidName p.Name :: (javaAccum (processJavaParameters pre).1 post).2) := by
  refine ⟨?_, ?_, ?_⟩
  · intro style pre post p b h
    constructor
    · rw [processEnv_append, processEnv_append]
      refine String.ext ?_
      simp [processEnvParameters, envStep, h, String.data_append]
    · rw [processEnv_append]
      simp [processEnvParameters, envStep, h]
  · intro pre post p b h
    constructor
    · cases hpre : iniAccum emptyCfg pre with
      | mk exc logs =>
        cases exc with
        | error e =>
          simp only [processINIParameters]
          rw [iniAccum_append_err pre ((p, b) :: post) emptyCfg e logs hpre,
            iniAccum_append_err pre post emptyCfg e logs hpre]
        | ok cfg1 =>
          simp only [processINIParameters]
          rw [iniAccum_append_ok pre ((p, b) :: post) emptyCfg cfg1 logs hpre,
            iniAccum_append_ok pre post emptyCfg cfg1 logs hpre,
            iniAccum_skip cfg1 p b post h]
    · intro cfg1 logs1 hpre
      simp only [processINIParameters]
      rw [iniAccum_append_ok pre ((p, b) :: post) emptyCfg cfg1 logs1 hpre,
        iniAccum_skip cfg1 p b post h]
  · intro pre post p b h
    constructor
    · simp only [processJavaParameters]
      rw [javaAccum_append, javaAccum_append]
      simp [javaAccum, h]
    · simp only [processJavaParameters]
      rw [javaAccum_append]
      simp [javaAccum, h]

/-- Witness for the amended C8 at concrete invalid names among valid
siblings (env and java styles, where sibling emission is unconditional,
and the INI log equation with an empty prefix). -/
theorem claim8_invalid_name_skipped_witness :
    ((processEnvParameters .dotenv
        [(⟨"/a/ok1", "1", PType.Plain⟩, "/a"), (⟨"/a/9bad", "2", PType.Plain⟩, "/a"),
         (⟨"/a/ok2", "3", PType.Plain⟩, "/a")]).1 =
      (processEnvParameters .dotenv
        [(⟨"/a/ok1", "1", PType.Plain⟩, "/a"), (⟨"/a/ok2", "3", PType.Plain⟩, "/a")]).1) ∧
    ((processJavaParameters
        [(⟨"/a", "0", PType.Plain⟩, "/a"), (⟨"/a/x/y", "4", PType.Plain⟩, "/a")]).1 =
      (processJavaParameters [(⟨"/a/x/y", "4", PType.Plain⟩, "/a")]).1) ∧
    ((processINIParameters
        [(⟨"/a/b.c.d", "2", PType.Plain⟩, "/a"), (⟨"/a/ok", "3", PType.Plain⟩, "/a")]).2 =
      [] ++ .warnInvalidName "/a/b.c.d" :: (iniAccum emptyCfg
        [(⟨"/a/ok", "3", PType.Plain⟩, "/a")]).2) := by
  refine ⟨?_, ?_, ?_⟩
  · have h := ((claim8_invalid_name_skipped.1 .dotenv [(⟨"/a/ok1", "1", PType.Plain⟩, "/a")]
      [(⟨"/a/ok2", "3", PType.Plain⟩, "/a")] ⟨"/a/9bad", "2", PType.Plain⟩ "/a") (by decide)).1
    simpa using h
  · have h := ((claim8_invalid_name_skipped.2.2 []
      [(⟨"/a/x/y", "4", PType.Plain⟩, "/a")] ⟨"/a", "0", PType.Plain⟩ "/a") (by decide)).1
    simpa using h
  · exact ((claim8_invalid_name_skipped.2.1 []
      [(⟨"/a/ok", "3", PType.Plain⟩, "/a")] ⟨"/a/b.c.d", "2", PType.Plain⟩ "/a")
      (by decide)).2 emptyCfg [] rfl

/-- Claim C6: when all parameters of the run are consumed and accumulated
into the in-memory section map (the claim's antecedent: the accumulation
completes without the interpolation `ValueError`), the emitter serializes
the complete structure exactly once, at the end of the run, to the run's
destination stream — including across concatenated inputs, which land in
one map; when the accumulation aborts instead, nothing is serialized. -/
theorem claim6_ini_accumulate_then_write :
    (∀ (params : List (Param × String)) (cfg : IniCfg) (logs : List LogEvent),
      iniAccum emptyCfg params = (.ok cfg, logs) →
      processINIParameters params = (.ok (writeINI cfg), logs)) ∧
    (∀ (params : List (Param × String)) (e : Unit) (logs : List LogEvent),
      iniAccum emptyCfg params = (.error e, logs) →
      processINIParameters params = (.error e, logs)) ∧
    (∀ (l1 l2 : List (Param × String)) (cfg1 : IniCfg) (logs1 : List LogEvent),
      iniAccum emptyCfg l1 = (.ok cfg1, logs1) →
      (processINIParameters (l1 ++ l2)).1 = ((iniAccum cfg1 l2).1).map writeINI) ∧
    (∀ (client : Client) (fuel : Nat) (paths : List String) (r : GenResult)
      (cfg : IniCfg) (logs : List LogEvent),
      generateAWSParameters client fuel paths = .ok r →
      iniAccum emptyCfg r.outs = (.ok cfg, logs) →
      mainINI client fuel paths = .ok (writeINI cfg, logs)) := by
  refine ⟨?_, ?_, ?_, ?_⟩
  · intro params cfg logs h
    rw [processINIParameters, h]
    rfl
  · intro params e logs h
    rw [processINIParameters, h]
    rfl
  · intro l1 l2 cfg1 logs1 h
    rw [processINIParameters, iniAccum_append_ok l1 l2 emptyCfg cfg1 logs1 h]
  · intro client fuel paths r cfg logs hgen hacc
    rw [mainINI, hgen]
    dsimp only
    rw [processINIParameters, hacc]
    rfl

/-- Witness for C6: a two-path run accumulated into one map and serialized
once at the end. -/
theorem claim6_ini_accumulate_then_write_witness :
    mainINI (fun p _ =>
        if p = "/a" then .ok ⟨[⟨"/a/s.x", "1", PType.Plain⟩], none⟩
        else .ok ⟨[⟨"/b/s.y", "2", PType.Plain⟩], none⟩) 1 ["/a", "/b"] =
      .ok (writeINI ⟨[], [("s", [("x", "1"), ("y", "2")])]⟩,
          [.debugParam "/a/s.x" "x" "1", .debugParam "/b/s.y" "y" "2"]) :=
  claim6_ini_accumulate_then_write.2.2.2
    (fun p _ =>
      if p = "/a" then .ok ⟨[⟨"/a/s.x", "1", PType.Plain⟩], none⟩
      else .ok ⟨[⟨"/b/s.y", "2", PType.Plain⟩], none⟩) 1 ["/a", "/b"]
    ⟨[("/a", none), ("/b", none)],
     [.infoGetting "/a", .infoFinished "/a", .infoGetting "/b", .infoFinished "/b"],
     [(⟨"/a/s.x", "1", PType.Plain⟩, "/a"), (⟨"/b/s.y", "2", PType.Plain⟩, "/b")]⟩
    ⟨[], [("s", [("x", "1"), ("y", "2")])]⟩
    [.debugParam "/a/s.x" "x" "1", .debugParam "/b/s.y" "y" "2"] rfl rfl


lemma takeWhile_append_stop (p : Char → Bool) : ∀ (l1 : List Char) (c : Char) (l2 : List Char),
    l1.all p = true → p c = false →
    (l1 ++ c :: l2).takeWhile p = l1 ∧ (l1 ++ c :: l2).dropWhile p = c :: l2 := by
  intro l1
  induction l1 with
  | nil =>
    intro c l2 _ hc
    simp [List.takeWhile_cons, List.dropWhile_cons, hc]
  | cons a l ih =>
    intro c l2 hall hc
    rw [List.all_cons, Bool.and_eq_true] at hall
    obtain ⟨pa, hl⟩ := hall
    have h2 := ih c l2 hl hc
    simp [List.takeWhile_cons, List.dropWhile_cons, pa, h2.1, h2.2]

lemma iniMatch_sound : ∀ (s : List Char) (osec : Option (List Char)) (nm : List Char),
    iniMatchChars s = some (osec, nm) →
    iniNameOk nm = true ∧
    ((∃ sec, osec = some sec ∧ iniNameOk sec = true ∧
        (s = '/' :: (sec ++ '.' :: nm) ∨ s = '/' :: (sec ++ '/' :: nm))) ∨
      (osec = none ∧ s = '/' :: nm)) := by
  intro s osec nm h
  cases s with
  | nil => simp [iniMatchChars] at h
  | cons c rest =>
    simp only [iniMatchChars] at h
    by_cases hc : c = '/'
    · rw [if_pos hc] at h
      subst hc
      split at h
      next hdrop =>
        split_ifs at h with hok
        have h2 : osec = none ∧ nm = rest := by
          cases h
          exact ⟨rfl, rfl⟩
        obtain ⟨ho, hn⟩ := h2
        subst ho
        subst hn
        exact ⟨hok, Or.inr ⟨rfl, rfl⟩⟩
      next c2 nm2 hdrop =>
        split_ifs at h with hcond
        simp only [Option.some.injEq, Prod.mk.injEq] at h
        obtain ⟨ho, hn⟩ := h
        subst hn
        subst ho
        simp only [Bool.and_eq_true, Bool.or_eq_true, decide_eq_true_eq] at hcond
        obtain ⟨⟨hsep, hsec⟩, hnm⟩ := hcond
        have hrest : rest = rest.takeWhile iniClass ++ c2 :: nm2 := by
          conv_lhs => rw [← List.takeWhile_append_dropWhile (p := iniClass) (l := rest)]
          rw [hdrop]
        refine ⟨hnm, Or.inl ⟨rest.takeWhile iniClass, rfl, hsec, ?_⟩⟩
        rcases hsep with rfl | rfl
        · exact Or.inl (by rw [← hrest])
        · exact Or.inr (by rw [← hrest])
    · rw [if_neg hc] at h
      simp at h

lemma iniMatch_complete : ∀ (sec nm : List Char) (c : Char), (c = '.' ∨ c = '/') →
    iniNameOk sec = true → iniNameOk nm = true →
    iniMatchChars ('/' :: (sec ++ c :: nm)) = some (some sec, nm) ∧
    iniMatchChars ('/' :: nm) = some (none, nm) := by
  intro sec nm c hcsep hsec hnm
  have hcls : iniClass c = false := by rcases hcsep with rfl | rfl <;> decide
  have hsall : sec.all iniClass = true := by
    rw [iniNameOk, Bool.and_eq_true] at hsec
    exact hsec.2
  have hnall : nm.all iniClass = true := by
    rw [iniNameOk, Bool.and_eq_true] at hnm
    exact hnm.2
  have hd := takeWhile_append_stop iniClass sec c nm hsall hcls
  constructor
  · simp only [iniMatchChars, if_pos rfl]
    rw [hd.2, hd.1]
    have hc2 : (c = '.' || c = '/') = true := by
      rcases hcsep with rfl | rfl <;> decide
    simp [hc2, hsec, hnm]
  · simp only [iniMatchChars, if_pos rfl]
    have hnil : nm.dropWhile iniClass = [] := by
      rw [List.dropWhile_eq_nil_iff]
      intro x hx
      exact (List.all_eq_true.mp hnall) x hx
    rw [hnil]
    simp [hnm]

lemma dollarCore_range (s : String) :
    s.data = dollarCore s ∨ s.data = dollarCore s ++ ['\n'] := by
  unfold dollarCore
  by_cases h : s.data.getLast? = some '\n'
  · right
    rw [if_pos h]
    have hne : s.data ≠ [] := by
      intro he
      rw [he] at h
      simp at h
    have hlast : s.data.getLast hne = '\n' := by
      rw [List.getLast?_eq_getLast s.data hne] at h
      exact Option.some.inj h
    conv_lhs => rw [← List.dropLast_append_getLast hne]
    rw [hlast]
  · left
    rw [if_neg h]

/-- Claim C5: for the INI style, the path tail relative to the base is
parsed as an optional section prefix separated by `.` or `/` followed by a
bare name, both in the class of letters, digits, `_` and `-`, with the
section defaulting to `main` when no prefix is present. Concrete instances
(including the `$`-before-trailing-newline tolerance of the Python regex),
the `main` defaulting in the accumulator, the scope of the `$` anchor,
soundness of the match (every successful match decomposes the tail — less
an optional final newline — into the claimed shape) and completeness
(every string of the claimed shape matches). -/
theorem claim5_ini_name_parsing :
    (iniMatchStr (strDrop "/a/sec.key" ("/a" : String).length) = some (some "sec", "key")) ∧
    (iniMatchStr (strDrop "/a/key" ("/a" : String).length) = some (none, "key")) ∧
    (iniMatchStr "/sec.key\n" = some (some "sec", "key")) ∧
    ((processINIParameters [(⟨"/a/sec.key", "v", PType.Plain⟩, "/a")]).1 =
      .ok "[sec]\nkey = v\n\n") ∧
    ((processINIParameters [(⟨"/a/key", "v", PType.Plain⟩, "/a")]).1 =
      .ok "[main]\nkey = v\n\n") ∧
    (∀ (cfg : IniCfg) (p : Param) (b nm : String),
      iniMatchStr (strDrop p.Name b.length) = some (none, nm) →
      (iniAccum cfg [(p, b)]).1 = iniSetE cfg "main" nm p.Value) ∧
    (∀ s : String, s.data = dollarCore s ∨ s.data = dollarCore s ++ ['\n']) ∧
    (∀ (s : String) (osec : Option String) (nm : String),
      iniMatchStr s = some (osec, nm) →
      iniNameOk nm.data = true ∧
      ((∃ sec, osec = some sec ∧ iniNameOk sec.data = true ∧
          (dollarCore s = '/' :: (sec.data ++ '.' :: nm.data) ∨
            dollarCore s = '/' :: (sec.data ++ '/' :: nm.data))) ∨
        (osec = none ∧ dollarCore s = '/' :: nm.data))) ∧
    (∀ (sec nm : List Char) (c : Char), (c = '.' ∨ c = '/') →
      iniNameOk sec = true → iniNameOk nm = true →
      iniMatchChars ('/' :: (sec ++ c :: nm)) = some (some sec, nm) ∧
      iniMatchChars ('/' :: nm) = some (none, nm)) := by
  refine ⟨by decide, by decide, by decide, rfl, rfl, ?_, dollarCore_range, ?_,
    iniMatch_complete⟩
  · intro cfg p b nm h
    cases hs : iniSetE cfg "main" nm p.Value with
    | error e => simp [iniAccum, h, hs]
    | ok cfg1 => simp [iniAccum, h, hs]
  · intro s osec nm h
    unfold iniMatchStr at h
    cases hc : iniMatchChars (dollarCore s) with
    | none => rw [hc] at h; simp at h
    | some v =>
      obtain ⟨osecC, nmC⟩ := v
      rw [hc] at h
      simp only [Option.some.injEq, Prod.mk.injEq] at h
      obtain ⟨ho, hn⟩ := h
      have hsound := iniMatch_sound (dollarCore s) osecC nmC hc
      subst ho
      subst hn
      refine ⟨hsound.1, ?_⟩
      rcases hsound.2 with ⟨secC, hsec1, hsec2, hsec3⟩ | ⟨h1, h2⟩
      · subst hsec1
        exact Or.inl ⟨String.mk secC, rfl, hsec2, hsec3⟩
      · subst h1
        exact Or.inr ⟨rfl, h2⟩

/-- Witness for C5: the general parts applied at concrete inputs. -/
theorem claim5_ini_name_parsing_witness :
    (iniAccum emptyCfg [(⟨"/a/key", "v", PType.Plain⟩, "/a")]).1 =
      iniSetE emptyCfg "main" "key" "v" ∧
    iniNameOk ("key").data = true ∧
    iniMatchChars ('/' :: (("sec").data ++ '.' :: ("key").data)) =
      some (some ("sec").data, ("key").data) := by
  refine ⟨?_, ?_, ?_⟩
  · exact claim5_ini_name_parsing.2.2.2.2.2.1 emptyCfg ⟨"/a/key", "v", PType.Plain⟩ "/a" "key"
      (by decide)
  · exact (claim5_ini_name_parsing.2.2.2.2.2.2.2.1 "/key" none "key" (by decide)).1
  · exact (claim5_ini_name_parsing.2.2.2.2.2.2.2.2 ("sec").data ("key").data '.' (Or.inl rfl)
      (by decide) (by decide)).1

lemma envStep_fst_retype (style : Style) (p : Param) (t : PType) :
    (envStep style ⟨p.Name, p.Value, t⟩).1 = (envStep style p).1 := by
  cases h : envName p.Name <;> simp [envStep, h]

lemma processEnv_fst_retype (f : Param → PType) (style : Style) :
    ∀ l : List (Param × String),
      (processEnvParameters style (retype f l)).1 = (processEnvParameters style l).1 := by
  intro l
  induction l with
  | nil => rfl
  | cons q rest ih =>
    simp only [retype, processEnvParameters, ih, envStep_fst_retype]

lemma iniAccum_fst_retype (f : Param → PType) : ∀ (l : List (Param × String)) (cfg : IniCfg),
    (iniAccum cfg (retype f l)).1 = (iniAccum cfg l).1 := by
  intro l
  induction l with
  | nil => intro cfg; rfl
  | cons q rest ih =>
    intro cfg
    obtain ⟨p, b⟩ := q
    cases h : iniMatchStr (strDrop p.Name b.length) with
    | none => simp [retype, iniAccum, h, ih]
    | some v =>
      obtain ⟨osec, nm⟩ := v
      cases hs : iniSetE cfg (osec.getD "main") nm p.Value with
      | error e => simp [retype, iniAccum, h, hs]
      | ok cfg1 => simp [retype, iniAccum, h, hs, ih]

lemma javaAccum_fst_retype (f : Param → PType) :
    ∀ (l : List (Param × String)) (props : List (String × String)),
      (javaAccum props (retype f l)).1 = (javaAccum props l).1 := by
  intro l
  induction l with
  | nil => intro props; rfl
  | cons q rest ih =>
    intro props
    obtain ⟨p, b⟩ := q
    cases h : javaName (strDrop p.Name b.length) with
    | none => simp [retype, javaAccum, h, ih]
    | some nm => simp [retype, javaAccum, h, ih]

lemma dirStep_retype (root uuid : String) (fs : Fs) (p : Param) (b : String) (t : PType) :
    (dirStep root uuid fs ⟨p.Name, p.Value, t⟩ b).1 = (dirStep root uuid fs p b).1 ∧
    (dirStep root uuid fs ⟨p.Name, p.Value, t⟩ b).2.2 = (dirStep root uuid fs p b).2.2 := by
  unfold dirStep
  by_cases hg : commonpath2 root (realpathStr (pathJoin root (strDrop p.Name (b.length + 1)))) ≠ root
  · simp only [if_pos hg]
    exact ⟨trivial, trivial⟩
  · simp only [if_neg hg]
    cases hm : makedirs fs
        (realComps (realpathStr (pathJoin root (strDrop p.Name (b.length + 1))))).dropLast
        uuid true with
    | mk fs1 e =>
      cases e with
      | some err => simp
      | none =>
        cases hw : writeFile fs1
            (realComps (realpathStr (pathJoin root (strDrop p.Name (b.length + 1)))))
            p.Value with
        | mk fs2 e2 =>
          cases e2 with
          | some err => simp [hw]
          | none => simp [hw]

lemma processDirGo_retype (root uuid : String) (f : Param → PType) :
    ∀ (l : List (Param × String)) (fs : Fs),
      (processDirGo root uuid fs (retype f l)).fs = (processDirGo root uuid fs l).fs ∧
      (processDirGo root uuid fs (retype f l)).writes = (processDirGo root uuid fs l).writes := by
  intro l
  induction l with
  | nil => intro fs; exact ⟨rfl, rfl⟩
  | cons q rest ih =>
    intro fs
    obtain ⟨p, b⟩ := q
    have hd := dirStep_retype root uuid fs p b (f p)
    simp only [retype, processDirGo]
    constructor
    · rw [hd.1]
      exact (ih ((dirStep root uuid fs p b).1)).1
    · rw [hd.2, hd.1, (ih ((dirStep root uuid fs p b).1)).2]

/-- Claim C9: the `Type` tag drives log redaction only: two runs identical
except for the parameters' `Type` tags produce identical emitted output in
every style — env text, INI text (including whether the run aborts), the
java properties mapping handed to the jproperties serializer (hence the
serialized bytes, for any serialization function of that mapping), and the
directory filesystem and written files — and a `SecureString` value is
emitted unredacted. -/
theorem claim9_type_tag_invariance :
    (∀ (f : Param → PType) (params : List (Param × String)),
      (∀ style : Style,
        (processEnvParameters style (retype f params)).1 =
          (processEnvParameters style params).1) ∧
      ((processINIParameters (retype f params)).1 = (processINIParameters params).1) ∧
      (∀ store : List (String × String) → String,
        store (processJavaParameters (retype f params)).1 =
          store (processJavaParameters params).1) ∧
      (∀ (outputDir uuid : String) (fs0 : Fs),
        (processDirParameters outputDir uuid fs0 (retype f params)).fs =
          (processDirParameters outputDir uuid fs0 params).fs ∧
        (processDirParameters outputDir uuid fs0 (retype f params)).writes =
          (processDirParameters outputDir uuid fs0 params).writes)) ∧
    ((processEnvParameters .docker [(⟨"/a/S", "secret", PType.SecureString⟩, "/a")]).1 =
      "# /a/S\nS=secret\n") := by
  constructor
  · intro f params
    refine ⟨fun style => processEnv_fst_retype f style params, ?_, ?_, ?_⟩
    · simp only [processINIParameters]
      rw [iniAccum_fst_retype]
    · intro store
      rw [processJavaParameters, processJavaParameters, javaAccum_fst_retype]
    · intro outputDir uuid fs0
      exact processDirGo_retype (realpathStr outputDir) uuid f params fs0
  · decide

/-- Claim C7 probe: `makedirs` on a path whose parent exists but which does
not itself exist raises `FileNotFoundError` (the `os.rename` on the
nonexistent path), so the directory serializer fails to create missing
intermediate directories and skips the parameter; while the special case of
a path segment existing as a leaf value file does work: the file is renamed
aside, the directory created, and the content preserved as `.value`. -/
theorem claim7_makedirs_behavior :
    (makedirs [(["out"], Node.dir)] ["out", "a"] "u" true =
      ([(["out"], Node.dir)], some OSErr.fileNotFound)) ∧
    (processDirParameters "/out" "u" [(["out"], Node.dir)]
        [(⟨"/base/a/b", "v", PType.Plain⟩, "/base")] =
      ⟨[(["out"], Node.dir)],
       [.debugParam "/base/a/b" "a/b" "v", .exceptionCreate "/out/a/b"], []⟩) ∧
    (processDirParameters "/out" "u"
        [(["out"], Node.dir), (["out", "a"], Node.file "old")]
        [(⟨"/base/a/b", "v", PType.Plain⟩, "/base")] =
      ⟨[(["out", "a", "b"], Node.file "v"), (["out", "a", ".value"], Node.file "old"),
        (["out", "a"], Node.dir), (["out"], Node.dir)],
       [.debugParam "/base/a/b" "a/b" "v"], ["/out/a/b"]⟩) := by
  refine ⟨by decide, by decide, by decide⟩

lemma strMk_data (s : String) : String.mk s.data = s := by
  cases s
  rfl

lemma strLength_pos (s : String) (h : s.data ≠ []) : 0 < s.length := by
  cases s with
  | mk l =>
    cases l with
    | nil => simp at h
    | cons c r => simp [String.length]

lemma joinSlash_cons (c : String) (l : List String) (h : l ≠ []) :
    joinSlash (c :: l) = c ++ "/" ++ joinSlash l := by
  cases l with
  | nil => simp at h
  | cons d r => rfl

lemma splitSlashAux_no_slash : ∀ (w cur : List Char), (∀ ch ∈ w, ch ≠ '/') →
    splitSlashAux w cur = [String.mk (cur.reverse ++ w)] := by
  intro w
  induction w with
  | nil => intro cur _; simp [splitSlashAux]
  | cons a w ih =>
    intro cur h
    have ha : a ≠ '/' := h a (by simp)
    rw [splitSlashAux, if_neg ha, ih (a :: cur) (fun ch hch => h ch (by simp [hch]))]
    simp

lemma splitSlashAux_break : ∀ (w : List Char) (cur rest : List Char),
    (∀ ch ∈ w, ch ≠ '/') →
    splitSlashAux (w ++ '/' :: rest) cur =
      String.mk (cur.reverse ++ w) :: splitSlashAux rest [] := by
  intro w
  induction w with
  | nil => intro cur rest _; simp [splitSlashAux]
  | cons a w ih =>
    intro cur rest h
    have ha : a ≠ '/' := h a (by simp)
    rw [List.cons_append, splitSlashAux, if_neg ha,
      ih (a :: cur) rest (fun ch hch => h ch (by simp [hch]))]
    simp

lemma splitSlash_joinSlash : ∀ l : List String, l ≠ [] →
    (∀ c ∈ l, '/' ∉ c.data) →
    splitSlashAux (joinSlash l).data [] = l := by
  intro l
  induction l with
  | nil => intro h; simp at h
  | cons c l ih =>
    intro _ hgood
    cases l with
    | nil =>
      rw [show joinSlash [c] = c from rfl,
        splitSlashAux_no_slash c.data [] (fun ch hch hc => hgood c (by simp) (hc ▸ hch))]
      simp [strMk_data]
    | cons d r =>
      rw [joinSlash_cons c (d :: r) (by simp)]
      have hdata : (c ++ "/" ++ joinSlash (d :: r)).data =
          c.data ++ '/' :: (joinSlash (d :: r)).data := by
        simp [String.data_append]
      rw [hdata,
        splitSlashAux_break c.data [] (joinSlash (d :: r)).data
          (fun ch hch hc => hgood c (by simp) (hc ▸ hch))]
      rw [ih (by simp) (fun x hx => hgood x (by simp [hx]))]
      simp [strMk_data]

lemma cleanSplit_round : ∀ l : List String,
    (∀ c ∈ l, c.data ≠ [] ∧ c ≠ "." ∧ '/' ∉ c.data) →
    cleanSplit ("/" ++ joinSlash l) = l := by
  intro l hgood
  cases l with
  | nil => decide
  | cons c r =>
    have hdata : ("/" ++ joinSlash (c :: r)).data = '/' :: (joinSlash (c :: r)).data := by
      simp [String.data_append]
    unfold cleanSplit splitSlash
    rw [hdata, splitSlashAux, if_pos rfl,
      splitSlash_joinSlash (c :: r) (by simp) (fun x hx => (hgood x hx).2.2)]
    have hkeep : ∀ x ∈ c :: r, compKeep x = true := by
      intro x hx
      have h := hgood x hx
      have hne : x ≠ "" := by
        intro he
        exact h.1 (by simp [he])
      simp [compKeep, hne, h.2.1]
    have hfalse : compKeep (String.mk ([] : List Char).reverse) = false := by decide
    rw [List.filter_cons, hfalse]
    simp only [Bool.false_eq_true, if_false]
    exact List.filter_eq_self.mpr hkeep

lemma splitSlashAux_no_slash_mem : ∀ (l cur : List Char), (∀ ch ∈ cur, ch ≠ '/') →
    ∀ c ∈ splitSlashAux l cur, '/' ∉ c.data := by
  intro l
  induction l with
  | nil =>
    intro cur hcur c hc
    simp [splitSlashAux] at hc
    subst hc
    intro hmem
    exact hcur '/' (by simpa using hmem) rfl
  | cons a l ih =>
    intro cur hcur c hc
    by_cases ha : a = '/'
    · rw [splitSlashAux, if_pos ha] at hc
      rcases List.mem_cons.mp hc with hc | hc
      · subst hc
        intro hmem
        exact hcur '/' (by simpa using hmem) rfl
      · exact ih [] (by simp) c hc
    · rw [splitSlashAux, if_neg ha] at hc
      refine ih (a :: cur) ?_ c hc
      intro ch hch
      rcases List.mem_cons.mp hch with hch | hch
      · rw [hch]; exact ha
      · exact hcur ch hch

lemma resolveComps_good : ∀ (l acc : List String),
    (∀ c ∈ acc, c.data ≠ [] ∧ c ≠ "." ∧ '/' ∉ c.data) →
    (∀ c ∈ l, '/' ∉ c.data) →
    ∀ c ∈ resolveComps acc l, c.data ≠ [] ∧ c ≠ "." ∧ '/' ∉ c.data := by
  intro l
  induction l with
  | nil =>
    intro acc hacc _ c hc
    rw [resolveComps] at hc
    exact hacc c (List.mem_reverse.mp hc)
  | cons a l ih =>
    intro acc hacc hl c hc
    rw [resolveComps] at hc
    by_cases h1 : a = "" || a = "."
    · rw [if_pos h1] at hc
      exact ih acc hacc (fun x hx => hl x (by simp [hx])) c hc
    · rw [if_neg h1] at hc
      by_cases h2 : a = ".."
      · rw [if_pos h2] at hc
        refine ih acc.tail ?_ (fun x hx => hl x (by simp [hx])) c hc
        intro x hx
        exact hacc x (List.mem_of_mem_tail hx)
      · rw [if_neg h2] at hc
        refine ih (a :: acc) ?_ (fun x hx => hl x (by simp [hx])) c hc
        intro x hx
        rcases List.mem_cons.mp hx with hx | hx
        · simp only [Bool.or_eq_true, decide_eq_true_eq] at h1
          push_neg at h1
          rw [hx]
          refine ⟨?_, h1.2, hl a (by simp)⟩
          intro hd
          exact h1.1 (String.ext (by simpa using hd))
        · exact hacc x hx

lemma realComps_good (s : String) :
    ∀ c ∈ realComps s, c.data ≠ [] ∧ c ≠ "." ∧ '/' ∉ c.data := by
  intro c hc
  exact resolveComps_good (splitSlash s) [] (by simp)
    (fun x hx => splitSlashAux_no_slash_mem s.data [] (by simp) x hx) c hc

lemma cleanSplit_realpathStr (s : String) : cleanSplit (realpathStr s) = realComps s :=
  cleanSplit_round (realComps s) (realComps_good s)

lemma joinSlash_length_head (c : String) (l : List String) :
    c.length ≤ (joinSlash (c :: l)).length := by
  cases l with
  | nil => simp [joinSlash]
  | cons d r =>
    rw [joinSlash_cons c (d :: r) (by simp), String.length_append, String.length_append]
    omega

lemma joinSlash_length_lt : ∀ (l1 ext : List String), ext ≠ [] →
    (∀ c ∈ ext, c ≠ "") →
    (joinSlash l1).length < (joinSlash (l1 ++ ext)).length := by
  intro l1
  induction l1 with
  | nil =>
    intro ext hne hgood
    cases ext with
    | nil => simp at hne
    | cons d r =>
      have hd : d.data ≠ [] := by
        intro h
        exact hgood d (by simp) (String.ext (by simpa using h))
      have h1 : 0 < d.length := strLength_pos d hd
      have h2 := joinSlash_length_head d r
      simp only [List.nil_append]
      calc (joinSlash []).length = 0 := by simp [joinSlash]
        _ < d.length := h1
        _ ≤ (joinSlash (d :: r)).length := h2
  | cons c l1 ih =>
    intro ext hne hgood
    cases l1 with
    | nil =>
      cases ext with
      | nil => simp at hne
      | cons d r =>
        simp only [List.cons_append, List.nil_append]
        rw [joinSlash_cons c (d :: r) (by simp),
          String.length_append, String.length_append]
        have hd : d.data ≠ [] := by
          intro h
          exact hgood d (by simp) (String.ext (by simpa using h))
        have h1 : 0 < d.length := strLength_pos d hd
        have h2 := joinSlash_length_head d r
        have : (joinSlash [c]).length = c.length := by simp [joinSlash]
        rw [this]
        have hsl : ("/" : String).length = 1 := by decide
        omega
    | cons e l2 =>
      have hgl := ih ext hne hgood
      rw [List.cons_append, joinSlash_cons c ((e :: l2) ++ ext) (by simp),
        joinSlash_cons c (e :: l2) (by simp),
        String.length_append, String.length_append,
        String.length_append, String.length_append]
      omega

lemma joinSlash_eq_of_isPre (l1 l2 : List String) (hp : l1 <+: l2)
    (hgood : ∀ c ∈ l2, c ≠ "") (heq : joinSlash l1 = joinSlash l2) : l1 = l2 := by
  obtain ⟨ext, rfl⟩ := hp
  cases ext with
  | nil => simp
  | cons d r =>
    have := joinSlash_length_lt l1 (d :: r) (by simp)
      (fun c hc => hgood c (by simp [hc]))
    rw [heq] at this
    omega

lemma commonPref_isPre_left : ∀ a b : List String, commonPref a b <+: a := by
  intro a
  induction a with
  | nil => intro b; rw [show commonPref [] b = [] by cases b <;> rfl]
  | cons x a ih =>
    intro b
    cases b with
    | nil => exact List.nil_prefix
    | cons y b =>
      rw [commonPref]
      by_cases h : x = y
      · rw [if_pos h]
        obtain ⟨t, ht⟩ := ih b
        exact ⟨t, by rw [List.cons_append, ht]⟩
      · rw [if_neg h]
        exact List.nil_prefix

lemma commonPref_isPre_right : ∀ a b : List String, commonPref a b <+: b := by
  intro a
  induction a with
  | nil => intro b; rw [show commonPref [] b = [] by cases b <;> rfl]; exact List.nil_prefix
  | cons x a ih =>
    intro b
    cases b with
    | nil => rw [show commonPref (x :: a) [] = [] from rfl]
    | cons y b =>
      rw [commonPref]
      by_cases h : x = y
      · rw [if_pos h]
        obtain ⟨t, ht⟩ := ih b
        exact ⟨t, by rw [List.cons_append, ht, h]⟩
      · rw [if_neg h]
        exact List.nil_prefix

lemma slash_append_cancel (a b : String) (h : "/" ++ a = "/" ++ b) : a = b := by
  have hd : ("/" ++ a).data = ("/" ++ b).data := by rw [h]
  rw [String.data_append, String.data_append] at hd
  exact String.ext (List.append_cancel_left hd)

lemma under_root_of_guard (outputDir y : String)
    (h : commonpath2 (realpathStr outputDir) (realpathStr y) = realpathStr outputDir) :
    cleanSplit (realpathStr outputDir) <+: cleanSplit (realpathStr y) := by
  rw [commonpath2, cleanSplit_realpathStr, cleanSplit_realpathStr] at h
  rw [realpathStr] at h
  have h2 : joinSlash (commonPref (realComps outputDir) (realComps y)) =
      joinSlash (realComps outputDir) := slash_append_cancel _ _ h
  have hgood : ∀ c ∈ realComps outputDir, c ≠ "" := by
    intro c hc he
    refine (realComps_good outputDir c hc).1 ?_
    rw [he]
  have hcp : commonPref (realComps outputDir) (realComps y) = realComps outputDir :=
    joinSlash_eq_of_isPre _ _ (commonPref_isPre_left _ _) hgood h2
  rw [cleanSplit_realpathStr, cleanSplit_realpathStr, ← hcp]
  exact commonPref_isPre_right _ _

lemma processDirGo_writes_guard (root uuid : String) : ∀ (l : List (Param × String)) (fs : Fs)
    (f : String), f ∈ (processDirGo root uuid fs l).writes →
    ∃ (p : Param) (b : String),
      f = realpathStr (pathJoin root (strDrop p.Name (b.length + 1))) ∧
      commonpath2 root f = root := by
  intro l
  induction l with
  | nil => intro fs f hf; simp [processDirGo] at hf
  | cons q rest ih =>
    intro fs f hf
    obtain ⟨p, b⟩ := q
    simp only [processDirGo] at hf
    rcases List.mem_append.mp hf with hf | hf
    · unfold dirStep at hf
      by_cases hg : commonpath2 root (realpathStr (pathJoin root (strDrop p.Name (b.length + 1)))) ≠ root
      · rw [if_pos hg] at hf
        simp at hf
      · rw [if_neg hg] at hf
        push_neg at hg
        cases hm : makedirs fs
            (realComps (realpathStr (pathJoin root (strDrop p.Name (b.length + 1))))).dropLast
            uuid true with
        | mk fs1 e =>
          rw [hm] at hf
          cases e with
          | some err => simp at hf
          | none =>
            dsimp only at hf
            cases hw : writeFile fs1
                (realComps (realpathStr (pathJoin root (strDrop p.Name (b.length + 1)))))
                p.Value with
            | mk fs2 e2 =>
              rw [hw] at hf
              cases e2 with
              | some err => simp at hf
              | none =>
                simp at hf
                subst hf
                exact ⟨p, b, rfl, hg⟩
    · exact ih _ f hf

/-- Claim C1: for directory-style output, every parameter whose resolved
target (realpath of the output root joined with its base-relative key) does
not lie under the realpath of the output root is rejected with a logged
error and skipped, and every file actually written has the root's resolved
components as a prefix of its own — no file is created outside the output
root. In particular the parameter named `/base/x/../../etc/passwd` under
base `/base` with root `/out` is rejected and nothing is written. -/
theorem claim1_escape_guard :
    (∀ (outputDir uuid : String) (fs0 : Fs) (params : List (Param × String)) (f : String),
      f ∈ (processDirParameters outputDir uuid fs0 params).writes →
      cleanSplit (realpathStr outputDir) <+: cleanSplit f) ∧
    (∀ (root uuid : String) (fs : Fs) (p : Param) (b : String),
      commonpath2 root (realpathStr (pathJoin root (strDrop p.Name (b.length + 1)))) ≠ root →
      dirStep root uuid fs p b =
        (fs, [.errorEscaped (realpathStr (pathJoin root (strDrop p.Name (b.length + 1))))], [])) ∧
    (processDirParameters "/out" "u" [(["out"], Node.dir)]
        [(⟨"/base/x/../../etc/passwd", "v", PType.Plain⟩, "/base")] =
      ⟨[(["out"], Node.dir)], [.errorEscaped "/etc/passwd"], []⟩) := by
  refine ⟨?_, ?_, by decide⟩
  · intro outputDir uuid fs0 params f hf
    obtain ⟨p, b, hfeq, hguard⟩ :=
      processDirGo_writes_guard (realpathStr outputDir) uuid params fs0 f hf
    subst hfeq
    exact under_root_of_guard outputDir
      (pathJoin (realpathStr outputDir) (strDrop p.Name (b.length + 1))) hguard
  · intro root uuid fs p b hg
    unfold dirStep
    rw [if_pos hg]

/-- Witness for C1: a concrete accepted write lies under the root, and a
concrete escaping parameter is rejected. -/
theorem claim1_escape_guard_witness :
    cleanSplit (realpathStr "/out") <+: cleanSplit "/out/x" ∧
    dirStep "/o" "u" [] ⟨"/b/../../etc/x", "v", PType.Plain⟩ "/b" =
      ([], [.errorEscaped (realpathStr (pathJoin "/o" (strDrop "/b/../../etc/x" 3)))], []) := by
  constructor
  · exact claim1_escape_guard.1 "/out" "u" [(["out"], Node.dir)]
      [(⟨"/base/x", "v", PType.Plain⟩, "/base")] "/out/x" (by decide)
  · exact claim1_escape_guard.2.1 "/o" "u" [] ⟨"/b/../../etc/x", "v", PType.Plain⟩ "/b"
      (by decide)
